import Mathlib

/-!
Verification of the Plex Library Viewer (src/PlexLibraryViewer.py) against its
specification.  Python strings are modelled as `List Char` (a Python `str` is a
sequence of code points); Python `int` values that are known non-negative are
modelled as `Nat`, general ones as `Int`.  Fallible Python expressions (dict
lookup, `%d` on `None`) are modelled with `Option`/`Except`.  Python's stable
`list.sort(key=...)` is modelled by the stable insertion sort
`List.insertionSort` over the same key order.
-/

set_option maxHeartbeats 1000000

namespace PlexViewer

/-! ### Python string primitives over `List Char` -/

/-- Python string comparison `a < b`: lexicographic over code points, a strict
prefix is smaller. -/
def pyStrLt : List Char → List Char → Bool
  | [], [] => false
  | [], _ :: _ => true
  | _ :: _, [] => false
  | a :: as, b :: bs => if a < b then true else if b < a then false else pyStrLt as bs

/-- Sort key order used by every `list.sort(key=lambda x: x[1])` in the source:
entry `a` may stay before `b` when the key of `b` is not smaller. -/
def sndLe {α : Type} (a b : α × List Char) : Prop := pyStrLt b.2 a.2 = false

instance sndLeDecidable {α : Type} : DecidableRel (@sndLe α) :=
  fun a b => instDecidableEqBool (pyStrLt b.2 a.2) false

/-- Python `s.split(sep)` for a one-character separator: keeps empty parts,
`''.split(sep) = ['']`. -/
def splitChar (sep : Char) : List Char → List (List Char)
  | [] => [[]]
  | c :: cs =>
    match splitChar sep cs with
    | [] => [[c]]
    | w :: ws => if c = sep then [] :: w :: ws else (c :: w) :: ws

/-- Join parts with a one-character separator (inverse of `splitChar`). -/
def joinSep (sep : Char) : List (List Char) → List Char
  | [] => []
  | [p] => p
  | p :: ps => p ++ sep :: joinSep sep ps

/-- Python `needle in hay` on strings: substring containment. -/
def pyIn (needle hay : List Char) : Bool :=
  hay.tails.any (fun t => needle.isPrefixOf t)

/-- Python `str(n).zfill(width)` for a non-negative rendering: left-pad with
zeros up to `width`. -/
def zfill (width : Nat) (s : List Char) : List Char :=
  List.replicate (width - s.length) '0' ++ s

/-- Python `'%d' % i` for an `int`: decimal rendering with a sign for
negatives. -/
def intToDigits (i : Int) : List Char :=
  if i < 0 then '-' :: Nat.toDigits 10 i.natAbs else Nat.toDigits 10 i.natAbs

/-- Drop the trailing spaces of a line (the wrapper tolerates one trailing
space per emitted line). -/
def rstripSpaces (l : List Char) : List Char :=
  (l.reverse.dropWhile (fun c => c == ' ')).reverse

/-- The words of a string, ignoring all spacing and newlines: split on `' '`,
split each part on `'\n'`, drop the empty fragments. -/
def wsTokens (t : List Char) : List (List Char) :=
  (((splitChar ' ' t).map (fun u => splitChar '\n' u)).flatten).filter
    (fun w => decide (w ≠ []))

/-! ### Formatter (source lines 49–62) -/

/-- `LINE_WIDTH` (source line 25). -/
def LINE_WIDTH : Nat := 120

/-- The `for` loop body of `break_string` (source lines 52–54) on the
`(col, text)` state: emit `'\n'` and reset the column when
`col + len(word) + 1 >= max_width`, then append `word + ' '`. -/
def breakStep (max_width : Nat) (acc : Nat × List Char) (word : List Char) :
    Nat × List Char :=
  let acc2 :=
    if max_width ≤ acc.1 + word.length + 1 then (0, acc.2 ++ ['\n']) else acc
  (acc2.1 + word.length + 1, acc2.2 ++ word ++ [' '])

/-- `break_string` (source lines 49–55): greedy word wrap.  `col` and `text`
start at `0` and `''` and thread through the loop over `s.split(' ')`. -/
def break_string (s : List Char) (max_width : Nat) : List Char :=
  ((splitChar ' ' s).foldl (breakStep max_width) (0, ([] : List Char))).2

/-- The text `break_string`'s loop emits for the remaining words when the
current line is already `col` wide: a recursion view of the same loop used to
reason about it. -/
def renderGo (maxW : Nat) : Nat → List (List Char) → List Char
  | _, [] => []
  | col, w :: ws =>
    if maxW ≤ col + w.length + 1 then
      '\n' :: (w ++ ' ' :: renderGo maxW (w.length + 1) ws)
    else w ++ ' ' :: renderGo maxW (col + w.length + 1) ws

/-- One emitted line, as text: its words, each followed by one space. -/
def renderLine (line : List (List Char)) : List Char :=
  (line.map (fun w => w ++ [' '])).flatten

/-- The lines `break_string`'s loop forms for the remaining words, each line a
list of words, given the current line `cur` already `col` wide. -/
def breakLinesGo (maxW : Nat) :
    Nat → List (List Char) → List (List Char) → List (List (List Char))
  | _, cur, [] => [cur]
  | col, cur, w :: ws =>
    if maxW ≤ col + w.length + 1 then
      cur :: breakLinesGo maxW (w.length + 1) [w] ws
    else breakLinesGo maxW (col + w.length + 1) (cur ++ [w]) ws

/-- The width a line's words occupy once rendered (each word plus one
space). -/
def lineWeight (line : List (List Char)) : Nat :=
  (line.map (fun w => w.length + 1)).sum

/-- `ms_to_str` (source lines 58–62): zero-padded `HH:MM:SS.mmm` decomposition
of a millisecond count.  The Python code mutates `d`; the successive values are
the `let`s below. -/
def ms_to_str (d : Nat) : List Char :=
  let h := d / 3600000
  let d1 := d % 3600000
  let m := d1 / 60000
  let d2 := d1 % 60000
  let s := d2 / 1000
  let d3 := d2 % 1000
  zfill 2 (Nat.toDigits 10 h) ++ ':' ::
    (zfill 2 (Nat.toDigits 10 m) ++ ':' ::
      (zfill 2 (Nat.toDigits 10 s) ++ '.' :: zfill 3 (Nat.toDigits 10 d3)))

/-- The hours component of a rendered duration: the prefix before the first
`':'`. -/
def hoursComponent (d : Nat) : List Char :=
  (ms_to_str d).takeWhile (fun c => decide (c ≠ ':'))

/-! ### Data model: account resources, servers, catalog items -/

/-- A `MyPlexResource`: a (name, capability-tags) record discovered via the
account (source line 83; only these two attributes are read). -/
structure Resource where
  name : List Char
  provides : List Char
deriving DecidableEq

/-- A catalog item as returned by the server.  `type` is the kind
discriminator; the remaining fields are the movie metadata read by
`show_movie` and the browse menus.  `rating` and `contentRating` are only ever
rendered with `%s`, so they are modelled as their rendered text. -/
structure Item where
  type : List Char
  title : List Char
  year : Option Int
  editionTitle : Option (List Char)
  originalTitle : Option (List Char)
  duration : Option Nat
  originallyAvailableAt : Option (Int × Nat × Nat)
  contentRating : Option (List Char)
  rating : Option (List Char)
deriving DecidableEq

/-- A connected Plex Media Server: its display name and the flat item list
that `server.library.all()` returns. -/
structure Server where
  friendlyName : List Char
  library : List Item
deriving DecidableEq

/-! ### Session Gateway (source lines 80–90) -/

/-- The filtered, sorted `(resource, display name)` list that `select_server`
offers (source lines 82–86): resources whose `provides` tag contains
`"server"` after lowercasing, sorted ascending by name (`.sort(key=x[1])`,
stable). -/
def select_server_values (resources : List Resource) : List (Resource × List Char) :=
  List.insertionSort sndLe
    ((resources.filter
        (fun r => pyIn "server".toList (r.provides.map Char.toLower))).map
      (fun r => (r, r.name)))

/-! ### Catalog Loader (source lines 101–112) -/

/-- One step of the grouping loop in `server_list_all` (source lines 106–109):
append `it` to the entry for its kind, creating the entry at the end on first
sight (Python dicts preserve insertion order). -/
def addItem (acc : List (List Char × List Item)) (it : Item) :
    List (List Char × List Item) :=
  if acc.any (fun p => decide (p.1 = it.type)) then
    acc.map (fun p => if p.1 = it.type then (p.1, p.2 ++ [it]) else p)
  else acc ++ [(it.type, [it])]

/-- `server_list_all` restricted to its data content (source lines 101–112):
group the flat item list by the `type` field.  The network fetch and the
transient status message have no data effect. -/
def server_list_all (items : List Item) : List (List Char × List Item) :=
  items.foldl addItem []

/-- Python `media_by_type[k]`: ordered-dict lookup, `none` models `KeyError`. -/
def lookupGroup (g : List (List Char × List Item)) (k : List Char) :
    Option (List Item) :=
  (g.find? (fun p => decide (p.1 = k))).map (fun p => p.2)

/-! ### Menus (source lines 28–32, 93–98, 132–154) -/

/-- `MEDIA_TEXT` (source lines 28–32), as a dict: lookup of any other key
raises `KeyError`, hence `Option`. -/
def MEDIA_TEXT (t : List Char) : Option (List Char) :=
  if t = "artist".toList then some "Music Artist".toList
  else if t = "movie".toList then some "Movie".toList
  else if t = "show".toList then some "TV Show".toList
  else none

/-- The label `"%s (%d items)" % (MEDIA_TEXT[t], len(l))` of one media-type
menu entry (source line 136). -/
def mediaTypeLabel (txt : List Char) (n : Nat) : List Char :=
  txt ++ " (".toList ++ Nat.toDigits 10 n ++ " items)".toList

/-- The unsorted media-type menu entries (source line 136): left to right over
the groups; the first kind missing from `MEDIA_TEXT` raises `KeyError`,
modelled as `Except.error` carrying that kind. -/
def buildMediaLabels : List (List Char × List Item) →
    Except (List Char) (List (List Char × List Char))
  | [] => .ok []
  | p :: ps =>
    match MEDIA_TEXT p.1 with
    | none => .error p.1
    | some txt =>
      match buildMediaLabels ps with
      | .error k => .error k
      | .ok rest => .ok ((p.1, mediaTypeLabel txt p.2.length) :: rest)

/-- The media-type menu as offered (source lines 136–137): labelled entries,
sorted by label. -/
def build_media_type_values (g : List (List Char × List Item)) :
    Except (List Char) (List (List Char × List Char)) :=
  (buildMediaLabels g).map (List.insertionSort sndLe)

/-- The label `'%s (%d)' % (movie.title, movie.year)` of one movie menu entry
(source line 144); `%d` on `None` raises `TypeError`, hence `none` when the
year is absent. -/
def movieEntry (m : Item) : Option (Item × List Char) :=
  match m.year with
  | none => none
  | some y => some (m, m.title ++ " (".toList ++ intToDigits y ++ ")".toList)

/-- The unsorted movie menu list (source line 144): left to right, failing at
the first movie without a year. -/
def buildMovieList : List Item → Option (List (Item × List Char))
  | [] => some []
  | m :: ms =>
    match movieEntry m, buildMovieList ms with
    | some p, some rest => some (p :: rest)
    | _, _ => none

/-- The movie menu as offered (source lines 144–145): entries sorted by
label. -/
def build_movie_values (ms : List Item) : Option (List (Item × List Char)) :=
  (buildMovieList ms).map (List.insertionSort sndLe)

/-! ### Detail Renderer (source lines 115–129) -/

/-- `strftime("%Y-%m-%d")` on a (year, month, day) date. -/
def strftimeYMD (d : Int × Nat × Nat) : List Char :=
  zfill 4 (intToDigits d.1) ++ '-' ::
    (zfill 2 (Nat.toDigits 10 d.2.1) ++ '-' :: zfill 2 (Nat.toDigits 10 d.2.2))

/-- `show_movie` (source lines 115–129): the detail text, each optional field
included only when present.  Total: no field is required. -/
def show_movie (movie : Item) : List Char :=
  let text := "<ansired>- Title:</ansired> ".toList ++ movie.title
  let text := match movie.editionTitle with
    | none => text
    | some e => text ++ " [".toList ++ e ++ "]".toList
  let text := match movie.originalTitle with
    | none => text
    | some o => text ++ "\n<ansired>- Original Title:</ansired> ".toList ++ o
  let text := match movie.duration with
    | none => text
    | some d => text ++ "\n<ansired>- Duration:</ansired> ".toList ++ ms_to_str d
  let text := match movie.originallyAvailableAt with
    | none => text
    | some d => text ++ "\n<ansired>- Release Date:</ansired> ".toList ++ strftimeYMD d
  let text := match movie.contentRating with
    | none => text
    | some c => text ++ "\n<ansired>- Content Rating:</ansired> ".toList ++ c
  match movie.rating with
  | none => text
  | some r => text ++ "\n<ansired>- Critic Rating:</ansired> ".toList ++ r

/-! ### Menu Navigator (source lines 132–154 and 157–180) -/

/-- Where the session is blocked on a dialog, or finished.  `mediaSelect`
carries the catalog grouping loaded on entering `server_operation_browse`;
`movieSelect` carries the sorted movie menu as well.  `fatalError` is an
uncaught exception escaping the main loop. -/
inductive NavPhase where
  | serverSelect : NavPhase
  | opSelect : Server → NavPhase
  | mediaSelect : Server → List (List Char × List Item) → NavPhase
  | movieSelect : Server → List (List Char × List Item) →
      List (Item × List Char) → NavPhase
  | done : NavPhase
  | fatalError : List Char → NavPhase
deriving DecidableEq

/-- Navigator state: the current phase plus how many times the catalog has
been fetched (`server_list_all` calls, i.e. `server.library.all()`). -/
structure NavState where
  phase : NavPhase
  fetches : Nat
deriving DecidableEq

/-- One dialog outcome: the cancel sentinel (`None`) or the value chosen at
the current menu. -/
inductive Input where
  | cancel : Input
  | selectServer : Server → Input
  | selectOp : List Char → Input
  | selectMedia : List Char → Input
  | selectMovie : Item → Input
deriving DecidableEq

/-- Reaching the top of the `while True` loop in `server_operation_browse`
(source lines 134–138): the media-type menu is rebuilt from the grouping; a
kind missing from `MEDIA_TEXT` raises `KeyError` there. -/
def enterMediaMenu (srv : Server) (g : List (List Char × List Item)) (n : Nat) :
    NavState :=
  match build_media_type_values g with
  | .error k => ⟨.fatalError ("KeyError: ".toList ++ k), n⟩
  | .ok _ => ⟨.mediaSelect srv g, n⟩

/-- The rendered `TypeError` of `'%d' % None` (source line 144). -/
def TYPE_ERROR_MSG : List Char :=
  "TypeError: %d format: a number is required, not NoneType".toList

/-- One transition of the session: the state blocked on a dialog consumes that
dialog's outcome.  Mirrors the main loop (source lines 163–180) and
`server_operation_browse` (source lines 132–154); an input a phase's dialog
cannot produce leaves the state unchanged. -/
def step : NavState → Input → NavState
  | ⟨.serverSelect, n⟩, .cancel => ⟨.done, n⟩
  | ⟨.serverSelect, n⟩, .selectServer srv => ⟨.opSelect srv, n⟩
  | ⟨.opSelect _, n⟩, .cancel => ⟨.serverSelect, n⟩
  | ⟨.opSelect srv, n⟩, .selectOp op =>
    if op = "browse".toList then
      enterMediaMenu srv (server_list_all srv.library) (n + 1)
    else ⟨.fatalError ("Invalid server operation: ".toList ++ op), n⟩
  | ⟨.mediaSelect _ _, n⟩, .cancel => ⟨.serverSelect, n⟩
  | ⟨.mediaSelect srv g, n⟩, .selectMedia t =>
    if t = "movie".toList then
      match lookupGroup g t with
      | none => ⟨.fatalError ("KeyError: ".toList ++ t), n⟩
      | some l =>
        match build_movie_values l with
        | none => ⟨.fatalError TYPE_ERROR_MSG, n⟩
        | some ms => ⟨.movieSelect srv g ms, n⟩
    else ⟨.fatalError ("Invalid media type: ".toList ++ t), n⟩
  | ⟨.movieSelect srv g _, n⟩, .cancel => enterMediaMenu srv g n
  | ⟨.movieSelect srv g ms, n⟩, .selectMovie _ => ⟨.movieSelect srv g ms, n⟩
  | ⟨.done, n⟩, _ => ⟨.done, n⟩
  | ⟨.fatalError m, n⟩, _ => ⟨.fatalError m, n⟩
  | s, _ => s

/-! ### Sample session fixtures for the concrete theorems -/

/-- A catalog item of kind `show` (only `type` and `title` present). -/
def showItemEx : Item :=
  ⟨"show".toList, "Lost".toList, none, none, none, none, none, none, none⟩

/-- A connected server whose catalog is the single show above. -/
def srvEx : Server := ⟨"Server".toList, [showItemEx]⟩

/-- The grouping loaded on browsing `srvEx`. -/
def gEx : List (List Char × List Item) := server_list_all srvEx.library

/-! ### Formatter lemmas: decimal digits, padding, the hours component -/

set_option maxRecDepth 20000

lemma le_zfill_length (n : Nat) (s : List Char) : n ≤ (zfill n s).length := by
  simp [zfill]; omega

lemma toDigitsCore_chars : ∀ (fuel n : Nat) (ds : List Char),
    (∀ c ∈ ds, ∃ k, k < 10 ∧ c = Nat.digitChar k) →
    ∀ c ∈ Nat.toDigitsCore 10 fuel n ds, ∃ k, k < 10 ∧ c = Nat.digitChar k := by
  intro fuel
  induction fuel with
  | zero => intro n ds h c hc; simpa [Nat.toDigitsCore] using h c hc
  | succ fuel ih =>
    intro n ds h c hc
    simp only [Nat.toDigitsCore] at hc
    by_cases h10 : n / 10 = 0
    · rw [if_pos h10] at hc
      rcases List.mem_cons.mp hc with rfl | hm
      · exact ⟨n % 10, Nat.mod_lt _ (by norm_num), rfl⟩
      · exact h c hm
    · rw [if_neg h10] at hc
      refine ih (n / 10) _ ?_ c hc
      intro c' hc'
      rcases List.mem_cons.mp hc' with rfl | hm
      · exact ⟨n % 10, Nat.mod_lt _ (by norm_num), rfl⟩
      · exact h c' hm

lemma toDigits_chars (n : Nat) :
    ∀ c ∈ Nat.toDigits 10 n, ∃ k, k < 10 ∧ c = Nat.digitChar k :=
  toDigitsCore_chars (n + 1) n [] (by simp)

lemma zfill_toDigits_ne_colon (w n : Nat) :
    ∀ c ∈ zfill w (Nat.toDigits 10 n), (decide (c ≠ ':')) = true := by
  intro c hc
  simp only [zfill, List.mem_append, List.mem_replicate] at hc
  rcases hc with ⟨-, rfl⟩ | hc
  · decide
  · rcases toDigits_chars n c hc with ⟨k, hk, rfl⟩
    interval_cases k <;> decide

lemma takeWhile_append_stop (p : Char → Bool) (a : List Char) (x : Char)
    (rest : List Char) (ha : ∀ c ∈ a, p c = true) (hx : p x = false) :
    (a ++ x :: rest).takeWhile p = a := by
  induction a with
  | nil => simp [List.takeWhile, hx]
  | cons c cs ih =>
    simp only [List.cons_append, List.takeWhile_cons, ha c (by simp)]
    simp [ih (fun c' hc' => ha c' (by simp [hc']))]

lemma hoursComponent_eq (d : Nat) :
    hoursComponent d = zfill 2 (Nat.toDigits 10 (d / 3600000)) := by
  unfold hoursComponent ms_to_str
  rw [takeWhile_append_stop _ _ _ _ (zfill_toDigits_ne_colon 2 _) (by decide)]

lemma hours_le_100_mono : ∀ h2 < 100, ∀ h1 < 100, h1 ≤ h2 →
    pyStrLt (zfill 2 (Nat.toDigits 10 h2)) (zfill 2 (Nat.toDigits 10 h1)) = false := by
  decide

/-- C5: `ms_to_str` returns the exact zero-padded `HH:MM:SS.mmm` decomposition
with no rounding: hours, minutes, seconds and milliseconds satisfy
`h*3600000 + m*60000 + s*1000 + mi = ms` with `m < 60`, `s < 60`, `mi < 1000`,
the first three fields padded to at least two digits and the milliseconds to
three; in particular `ms_to_str 0 = "00:00:00.000"`,
`ms_to_str 3661000 = "01:01:01.000"` and `ms_to_str 500 = "00:00:00.500"`. -/
theorem ms_to_str_exact_decomposition :
    (∀ d : Nat, ∃ h m s mi,
      (d = h * 3600000 + m * 60000 + s * 1000 + mi ∧ m < 60 ∧ s < 60 ∧ mi < 1000) ∧
      ms_to_str d =
        zfill 2 (Nat.toDigits 10 h) ++ ':' ::
          (zfill 2 (Nat.toDigits 10 m) ++ ':' ::
            (zfill 2 (Nat.toDigits 10 s) ++ '.' :: zfill 3 (Nat.toDigits 10 mi))) ∧
      2 ≤ (zfill 2 (Nat.toDigits 10 h)).length ∧
      2 ≤ (zfill 2 (Nat.toDigits 10 m)).length ∧
      2 ≤ (zfill 2 (Nat.toDigits 10 s)).length ∧
      3 ≤ (zfill 3 (Nat.toDigits 10 mi)).length) ∧
    ms_to_str 0 = "00:00:00.000".toList ∧
    ms_to_str 3661000 = "01:01:01.000".toList ∧
    ms_to_str 500 = "00:00:00.500".toList := by
  refine ⟨fun d => ⟨d / 3600000, d % 3600000 / 60000, d % 3600000 % 60000 / 1000,
    d % 3600000 % 60000 % 1000, ⟨by omega, by omega, by omega, by omega⟩, rfl,
    le_zfill_length 2 _, le_zfill_length 2 _, le_zfill_length 2 _, le_zfill_length 3 _⟩,
    by decide, by decide, by decide⟩

/-- C6 counterexample: at 99 versus 100 hours the claim fails: 356400000 ms
renders hours `"99"`, 360000000 ms renders hours `"100"`, and `"100"` is
lexicographically smaller than `"99"` although the duration is larger. -/
theorem hours_lex_counterexample :
    356400000 ≤ 360000000 ∧
    pyStrLt (hoursComponent 360000000) (hoursComponent 356400000) = true := by
  decide

/-- C6 (amended): below 100 hours — both inputs under 360000000 ms — the hours
component of `ms_to_str` is lexicographically monotone: for `ms1 ≤ ms2` the
hours string of `ms2` is never smaller than that of `ms1`.  At 100 hours the
field grows to three digits and lexicographic order diverges from numeric
order (see `hours_lex_counterexample`). -/
theorem hours_lex_monotone_below_100h (ms1 ms2 : Nat) (hle : ms1 ≤ ms2)
    (hlt : ms2 < 360000000) :
    pyStrLt (hoursComponent ms2) (hoursComponent ms1) = false := by
  rw [hoursComponent_eq, hoursComponent_eq]
  exact hours_le_100_mono (ms2 / 3600000) (by omega) (ms1 / 3600000) (by omega)
    (Nat.div_le_div_right hle)

/-- C6 witness: the amended monotonicity at the concrete pair 0 ms and 1 h. -/
theorem hours_lex_monotone_witness :
    pyStrLt (hoursComponent 3600000) (hoursComponent 0) = false :=
  hours_lex_monotone_below_100h 0 3600000 (Nat.zero_le _) (by decide)

/-! ### The Python sort order: asymmetry, transitivity, totality -/

lemma pyStrLt_asymm : ∀ a b : List Char, pyStrLt a b = true → pyStrLt b a = false := by
  intro a
  induction a with
  | nil => intro b h; cases b <;> simp_all [pyStrLt]
  | cons c cs ih =>
    intro b h
    cases b with
    | nil => simp [pyStrLt] at h
    | cons d ds =>
      simp only [pyStrLt] at h ⊢
      rcases lt_trichotomy c d with hcd | hcd | hcd
      · rw [if_neg (lt_asymm hcd), if_pos hcd]
      · subst hcd
        rw [if_neg (lt_irrefl c), if_neg (lt_irrefl c)] at h ⊢
        exact ih ds h
      · rw [if_neg (lt_asymm hcd), if_pos hcd] at h
        exact absurd h (by simp)

lemma pyStrLt_le_trans : ∀ a b c : List Char,
    pyStrLt b a = false → pyStrLt c b = false → pyStrLt c a = false := by
  intro a
  induction a with
  | nil => intro b c _ _; cases c <;> rfl
  | cons x xs ih =>
    intro b c h1 h2
    cases b with
    | nil => simp [pyStrLt] at h1
    | cons y ys =>
      cases c with
      | nil => simp [pyStrLt] at h2
      | cons z zs =>
        simp only [pyStrLt] at h1 h2 ⊢
        have hyx : ¬ y < x := by
          intro h; rw [if_pos h] at h1; exact absurd h1 (by simp)
        have hzy : ¬ z < y := by
          intro h; rw [if_pos h] at h2; exact absurd h2 (by simp)
        have hxz : x ≤ z := le_trans (not_lt.mp hyx) (not_lt.mp hzy)
        rw [if_neg (not_lt.mpr hxz)]
        by_cases hxz2 : x < z
        · rw [if_pos hxz2]
        · rw [if_neg hxz2]
          have hzx : x = z := le_antisymm hxz (not_lt.mp hxz2)
          have hxy : x = y := le_antisymm (not_lt.mp hyx) (hzx ▸ not_lt.mp hzy)
          rw [if_neg hyx] at h1
          rw [if_neg hzy] at h2
          subst hxy
          rw [if_neg (lt_irrefl x)] at h1
          rw [if_neg (by rw [← hzx]; exact lt_irrefl x)] at h2
          exact ih ys zs h1 h2

instance sndLeTotal {α : Type} : IsTotal (α × List Char) sndLe := ⟨by
  intro a b
  cases h : pyStrLt b.2 a.2 with
  | false => exact Or.inl h
  | true => exact Or.inr (pyStrLt_asymm _ _ h)⟩

instance sndLeTrans {α : Type} : IsTrans (α × List Char) sndLe :=
  ⟨fun a b c h1 h2 => pyStrLt_le_trans a.2 b.2 c.2 h1 h2⟩

/-- C7: for every resource list, `select_server` offers exactly the resources
whose capability tag contains `"server"` case-insensitively, paired with their
display names, in ascending lexicographic name order; in particular resources
named "Beta" and "Alpha" are offered as Alpha then Beta. -/
theorem select_server_values_spec :
    (∀ resources : List Resource,
      (select_server_values resources).Perm
        ((resources.filter
            (fun r => pyIn "server".toList (r.provides.map Char.toLower))).map
          (fun r => (r, r.name))) ∧
      List.Sorted sndLe (select_server_values resources)) ∧
    select_server_values
        [⟨"Beta".toList, "server".toList⟩, ⟨"Alpha".toList, "server".toList⟩] =
      [(⟨"Alpha".toList, "server".toList⟩, "Alpha".toList),
       (⟨"Beta".toList, "server".toList⟩, "Beta".toList)] := by
  exact ⟨fun resources => ⟨List.perm_insertionSort _ _, List.sorted_insertionSort _ _⟩,
    by decide⟩

/-! ### Catalog grouping lemmas -/

lemma addItem_inv (pref : List Item) (acc : List (List Char × List Item)) (x : Item)
    (hA : ∀ p ∈ acc, p.2 = pref.filter (fun it => decide (it.type = p.1)))
    (hB : (acc.map Prod.fst).Nodup)
    (hC : ∀ it ∈ pref, it.type ∈ acc.map Prod.fst) :
    (∀ p ∈ addItem acc x,
      p.2 = (pref ++ [x]).filter (fun it => decide (it.type = p.1))) ∧
    ((addItem acc x).map Prod.fst).Nodup ∧
    (∀ it ∈ pref ++ [x], it.type ∈ (addItem acc x).map Prod.fst) := by
  unfold addItem
  by_cases hmem : acc.any (fun p => decide (p.1 = x.type)) = true
  · rw [if_pos hmem]
    have hfst : (acc.map (fun p => if p.1 = x.type then (p.1, p.2 ++ [x]) else p)).map
        Prod.fst = acc.map Prod.fst := by
      rw [List.map_map]
      refine List.map_congr_left ?_
      intro p _
      by_cases h : p.1 = x.type <;> simp [h]
    refine ⟨?_, by rw [hfst]; exact hB, ?_⟩
    · intro p hp
      rcases List.mem_map.mp hp with ⟨q, hq, rfl⟩
      rw [List.filter_append]
      by_cases h : q.1 = x.type
      · simp only [if_pos h]
        rw [← hA q hq]
        simp [List.filter_cons, h.symm]
      · simp only [if_neg h]
        rw [← hA q hq]
        have : x.type ≠ q.1 := fun hh => h hh.symm
        simp [List.filter_cons, this]
    · intro it hit
      rw [hfst]
      rcases List.mem_append.mp hit with hit | hit
      · exact hC it hit
      · rcases List.mem_singleton.mp hit with rfl
        rcases List.any_eq_true.mp hmem with ⟨p, hp, hpx⟩
        exact List.mem_map.mpr ⟨p, hp, (of_decide_eq_true hpx).symm ▸ rfl⟩
  · rw [if_neg hmem]
    have hnot : x.type ∉ acc.map Prod.fst := by
      intro hmm
      rcases List.mem_map.mp hmm with ⟨p, hp, hfst⟩
      exact hmem (List.any_eq_true.mpr ⟨p, hp, decide_eq_true hfst⟩)
    have hfilpref : pref.filter (fun it => decide (it.type = x.type)) = [] := by
      rw [List.filter_eq_nil_iff]
      intro a ha hdec
      exact hnot ((of_decide_eq_true hdec) ▸ hC a ha)
    refine ⟨?_, ?_, ?_⟩
    · intro p hp
      rcases List.mem_append.mp hp with hp | hp
      · rw [List.filter_append, ← hA p hp]
        have : pref.filter (fun it => decide (it.type = p.1)) ++
            [x].filter (fun it => decide (it.type = p.1)) =
            pref.filter (fun it => decide (it.type = p.1)) := by
          have hne : ¬ (x.type = p.1) := by
            intro hh
            exact hmem (List.any_eq_true.mpr ⟨p, hp, decide_eq_true hh.symm⟩)
          simp [List.filter_cons, hne]
        rw [← hA p hp] at this
        rw [this]
      · rcases List.mem_singleton.mp hp with rfl
        simp only [List.filter_append, hfilpref, List.nil_append]
        simp [List.filter_cons]
    · rw [List.map_append, List.nodup_append]
      exact ⟨hB, List.nodup_singleton _, by
        intro a ha hb
        rcases List.mem_singleton.mp hb with rfl
        exact hnot ha⟩
    · intro it hit
      rw [List.map_append]
      rcases List.mem_append.mp hit with hit | hit
      · exact List.mem_append_left _ (hC it hit)
      · rcases List.mem_singleton.mp hit with rfl
        exact List.mem_append_right _ (by simp)

lemma addItem_ne_nil (acc : List (List Char × List Item)) (x : Item)
    (hD : ∀ p ∈ acc, p.2 ≠ []) : ∀ p ∈ addItem acc x, p.2 ≠ [] := by
  unfold addItem
  by_cases hmem : acc.any (fun p => decide (p.1 = x.type)) = true
  · rw [if_pos hmem]
    intro p hp
    rcases List.mem_map.mp hp with ⟨q, hq, rfl⟩
    by_cases h : q.1 = x.type <;> simp [h, hD q hq]
  · rw [if_neg hmem]
    intro p hp
    rcases List.mem_append.mp hp with hp | hp
    · exact hD p hp
    · rcases List.mem_singleton.mp hp with rfl
      simp

lemma foldl_addItem_inv : ∀ (l pref : List Item) (acc : List (List Char × List Item)),
    (∀ p ∈ acc, p.2 = pref.filter (fun it => decide (it.type = p.1))) →
    ((acc.map Prod.fst).Nodup) →
    (∀ it ∈ pref, it.type ∈ acc.map Prod.fst) →
    (∀ p ∈ acc, p.2 ≠ []) →
    (∀ p ∈ l.foldl addItem acc,
      p.2 = (pref ++ l).filter (fun it => decide (it.type = p.1))) ∧
    (((l.foldl addItem acc).map Prod.fst).Nodup) ∧
    (∀ it ∈ pref ++ l, it.type ∈ (l.foldl addItem acc).map Prod.fst) ∧
    (∀ p ∈ l.foldl addItem acc, p.2 ≠ []) := by
  intro l
  induction l with
  | nil =>
    intro pref acc hA hB hC hD
    simp only [List.foldl_nil, List.append_nil]
    exact ⟨hA, hB, hC, hD⟩
  | cons x xs ih =>
    intro pref acc hA hB hC hD
    rcases addItem_inv pref acc x hA hB hC with ⟨hA', hB', hC'⟩
    have hD' := addItem_ne_nil acc x hD
    have := ih (pref ++ [x]) (addItem acc x) hA' hB' hC' hD'
    simpa [List.append_assoc] using this

lemma server_list_all_inv (items : List Item) :
    (∀ p ∈ server_list_all items,
      p.2 = items.filter (fun it => decide (it.type = p.1))) ∧
    (((server_list_all items).map Prod.fst).Nodup) ∧
    (∀ it ∈ items, it.type ∈ (server_list_all items).map Prod.fst) ∧
    (∀ p ∈ server_list_all items, p.2 ≠ []) := by
  have := foldl_addItem_inv items [] [] (by simp) (by simp) (by simp) (by simp)
  simpa [server_list_all] using this

lemma length_filter_split {α : Type} (p : α → Bool) (l : List α) :
    (l.filter p).length + (l.filter (fun a => !p a)).length = l.length := by
  induction l with
  | nil => rfl
  | cons x xs ih => by_cases h : p x <;> simp [List.filter_cons, h, ← ih] <;> omega

lemma sum_filter_lengths : ∀ (keys : List (List Char)) (items : List Item),
    keys.Nodup → (∀ it ∈ items, it.type ∈ keys) →
    ((keys.map (fun k => (items.filter (fun it => decide (it.type = k))).length)).sum
      = items.length) := by
  intro keys
  induction keys with
  | nil =>
    intro items _ hcov
    cases items with
    | nil => rfl
    | cons x xs => exact absurd (hcov x (by simp)) (by simp)
  | cons k ks ih =>
    intro items hnd hcov
    have hrest : ∀ it ∈ items.filter (fun it => !(decide (it.type = k))),
        it.type ∈ ks := by
      intro it hit
      rcases List.mem_filter.mp hit with ⟨hmem, hne⟩
      have hne2 : it.type ≠ k := by simpa using hne
      rcases List.mem_cons.mp (hcov it hmem) with h | h
      · exact absurd h hne2
      · exact h
    have hne : ∀ k' ∈ ks,
        items.filter (fun it => decide (it.type = k')) =
        (items.filter (fun it => !(decide (it.type = k)))).filter
          (fun it => decide (it.type = k')) := by
      intro k' hk'
      rw [List.filter_filter]
      refine List.filter_congr ?_
      intro it _
      by_cases h : it.type = k'
      · have hnk : it.type ≠ k := by
          intro hh
          have hkk : k = k' := by rw [← hh, h]
          exact (List.nodup_cons.mp hnd).1 (hkk ▸ hk')
        have hk'k : ¬ k' = k := fun hh => hnk (h.trans hh)
        simp [h, hnk, hk'k]
      · simp [h]
    have hsum : (ks.map (fun k' =>
        (items.filter (fun it => decide (it.type = k'))).length)).sum =
        (ks.map (fun k' =>
          ((items.filter (fun it => !(decide (it.type = k)))).filter
            (fun it => decide (it.type = k'))).length)).sum := by
      congr 1
      exact List.map_congr_left (fun k' hk' => by rw [hne k' hk'])
    simp only [List.map_cons, List.sum_cons, hsum]
    rw [ih _ (List.nodup_cons.mp hnd).2 hrest]
    exact length_filter_split _ items

theorem server_list_all_grouping (items : List Item) :
    (∀ p ∈ server_list_all items,
      p.2 = items.filter (fun it => decide (it.type = p.1))) ∧
    (((server_list_all items).map Prod.fst).Nodup) ∧
    (∀ it ∈ items, it.type ∈ (server_list_all items).map Prod.fst) ∧
    (((server_list_all items).map (fun p => p.2.length)).sum = items.length) ∧
    (∀ p ∈ server_list_all items, p.2 ≠ []) := by
  obtain ⟨hA, hB, hC, hD⟩ := server_list_all_inv items
  refine ⟨hA, hB, hC, ?_, hD⟩
  have hmap : (server_list_all items).map (fun p => p.2.length) =
      ((server_list_all items).map Prod.fst).map
        (fun k => (items.filter (fun it => decide (it.type = k))).length) := by
    rw [List.map_map]
    refine List.map_congr_left ?_
    intro p hp
    simp only [Function.comp]
    rw [hA p hp]
  rw [hmap]
  exact sum_filter_lengths _ items hB hC

lemma MEDIA_TEXT_isSome_iff (t : List Char) :
    (MEDIA_TEXT t).isSome = true ↔
      t ∈ [("artist".toList : List Char), "movie".toList, "show".toList] := by
  unfold MEDIA_TEXT
  split_ifs with h1 h2 h3 <;> simp_all

lemma buildMediaLabels_ok_iff : ∀ g : List (List Char × List Item),
    (∃ v, buildMediaLabels g = .ok v) ↔ ∀ p ∈ g, (MEDIA_TEXT p.1).isSome = true := by
  intro g
  induction g with
  | nil => simp [buildMediaLabels]
  | cons p ps ih =>
    constructor
    · rintro ⟨v, hv⟩
      unfold buildMediaLabels at hv
      intro q hq
      rcases List.mem_cons.mp hq with rfl | hq
      · cases hmt : MEDIA_TEXT q.1 with
        | none => rw [hmt] at hv; exact absurd hv (by simp)
        | some txt => simp [hmt]
      · cases hmt : MEDIA_TEXT p.1 with
        | none => rw [hmt] at hv; exact absurd hv (by simp)
        | some txt =>
          rw [hmt] at hv
          cases hbl : buildMediaLabels ps with
          | error k => rw [hbl] at hv; exact absurd hv (by simp)
          | ok rest => exact (ih.mp ⟨rest, hbl⟩) q hq
    · intro hall
      have hp : (MEDIA_TEXT p.1).isSome = true := hall p (by simp)
      rcases Option.isSome_iff_exists.mp hp with ⟨txt, htxt⟩
      rcases ih.mpr (fun q hq => hall q (List.mem_cons_of_mem _ hq)) with ⟨rest, hrest⟩
      exact ⟨(p.1, mediaTypeLabel txt p.2.length) :: rest, by
        unfold buildMediaLabels
        rw [htxt, hrest]⟩

lemma buildMediaLabels_error : ∀ (g : List (List Char × List Item)) (k : List Char),
    buildMediaLabels g = .error k → k ∈ g.map Prod.fst ∧ MEDIA_TEXT k = none := by
  intro g
  induction g with
  | nil => intro k hk; exact absurd hk (by simp [buildMediaLabels])
  | cons p ps ih =>
    intro k hk
    unfold buildMediaLabels at hk
    cases hmt : MEDIA_TEXT p.1 with
    | none =>
      rw [hmt] at hk
      cases hk
      exact ⟨by simp, hmt⟩
    | some txt =>
      rw [hmt] at hk
      cases hbl : buildMediaLabels ps with
      | error k' =>
        rw [hbl] at hk
        cases hk
        rcases ih k hbl with ⟨hmem, hnone⟩
        exact ⟨List.mem_cons_of_mem _ hmem, hnone⟩
      | ok rest => rw [hbl] at hk; exact absurd hk (by simp)

lemma build_media_ok_iff (g : List (List Char × List Item)) :
    (∃ v, build_media_type_values g = .ok v) ↔ ∃ v, buildMediaLabels g = .ok v := by
  unfold build_media_type_values
  cases hbl : buildMediaLabels g <;> simp [Except.map]

lemma build_media_error_iff (g : List (List Char × List Item)) (k : List Char) :
    build_media_type_values g = .error k ↔ buildMediaLabels g = .error k := by
  unfold build_media_type_values
  cases hbl : buildMediaLabels g <;> simp [Except.map]

/-- C9 (implicit): the media-type menu can be built exactly when every kind in
the loaded catalog is one of the three `MEDIA_TEXT` keys (artist, movie,
show); a catalog holding an item of any other kind makes menu construction
fail with a lookup error carrying an offending unknown kind — there is no
fallback label. -/
theorem media_menu_requires_known_kinds (items : List Item) :
    ((∃ v, build_media_type_values (server_list_all items) = .ok v) ↔
      ∀ it ∈ items,
        it.type ∈ [("artist".toList : List Char), "movie".toList, "show".toList]) ∧
    (∀ k, build_media_type_values (server_list_all items) = .error k →
      (∃ it ∈ items, it.type = k) ∧ MEDIA_TEXT k = none) := by
  obtain ⟨hA, hB, hC, hD⟩ := server_list_all_inv items
  have hkey_item : ∀ k, k ∈ (server_list_all items).map Prod.fst →
      ∃ it ∈ items, it.type = k := by
    intro k hk
    rcases List.mem_map.mp hk with ⟨p, hp, rfl⟩
    have hne := hD p hp
    rw [hA p hp] at hne
    rcases List.exists_mem_of_ne_nil _ hne with ⟨it, hit⟩
    rcases List.mem_filter.mp hit with ⟨hmem, htype⟩
    exact ⟨it, hmem, of_decide_eq_true htype⟩
  constructor
  · rw [build_media_ok_iff, buildMediaLabels_ok_iff]
    constructor
    · intro hall it hit
      rcases List.mem_map.mp (hC it hit) with ⟨p, hp, hfst⟩
      have := hall p hp
      rw [MEDIA_TEXT_isSome_iff] at this
      rw [← hfst]
      exact this
    · intro hall p hp
      rcases hkey_item p.1 (List.mem_map.mpr ⟨p, hp, rfl⟩) with ⟨it, hit, htype⟩
      rw [MEDIA_TEXT_isSome_iff, ← htype]
      exact hall it hit
  · intro k hk
    rw [build_media_error_iff] at hk
    rcases buildMediaLabels_error _ k hk with ⟨hmem, hnone⟩
    exact ⟨hkey_item k hmem, hnone⟩

lemma movieEntry_isSome (m : Item) : (movieEntry m).isSome = m.year.isSome := by
  unfold movieEntry; cases m.year <;> rfl

lemma buildMovieList_isSome_iff : ∀ ms : List Item,
    (buildMovieList ms).isSome = true ↔ ∀ m ∈ ms, m.year.isSome = true := by
  intro ms
  induction ms with
  | nil => simp [buildMovieList]
  | cons m rest ih =>
    constructor
    · intro h q hq
      unfold buildMovieList at h
      cases he : movieEntry m with
      | none =>
        rw [he] at h
        cases hb : buildMovieList rest <;> rw [hb] at h <;> simp at h
      | some p =>
        rw [he] at h
        cases hb : buildMovieList rest with
        | none => rw [hb] at h; simp at h
        | some r =>
          rcases List.mem_cons.mp hq with rfl | hq
          · rw [← movieEntry_isSome, he]; rfl
          · exact ih.mp (by simp [hb]) q hq
    · intro hall
      have h1 : (movieEntry m).isSome = true := by
        rw [movieEntry_isSome]; exact hall m (by simp)
      rcases Option.isSome_iff_exists.mp h1 with ⟨p, hp⟩
      rcases Option.isSome_iff_exists.mp
        (ih.mpr (fun q hq => hall q (List.mem_cons_of_mem _ hq))) with ⟨r, hr⟩
      unfold buildMovieList
      rw [hp, hr]
      rfl

lemma build_movie_values_isSome (ms : List Item) :
    (build_movie_values ms).isSome = (buildMovieList ms).isSome := by
  unfold build_movie_values; cases buildMovieList ms <;> rfl

/-- C10 (implicit): the movie menu is constructible exactly when every movie
has a present year — the label `'%s (%d)' % (title, year)` needs an integer —
and when some listed movie lacks a year the navigator's movie branch dies
with the `TypeError` before any movie-selection dialog is reached, although
every optional field of the detail view itself may be absent
(`show_movie` is total). -/
theorem movie_menu_requires_year :
    (∀ movies : List Item, (build_movie_values movies).isSome = true ↔
      ∀ m ∈ movies, m.year.isSome = true) ∧
    (∀ (srv : Server) (g : List (List Char × List Item)) (n : Nat) (l : List Item),
      lookupGroup g "movie".toList = some l → (∃ m ∈ l, m.year = none) →
      step ⟨.mediaSelect srv g, n⟩ (.selectMedia "movie".toList) =
        ⟨.fatalError TYPE_ERROR_MSG, n⟩) := by
  have hiff : ∀ movies : List Item, (build_movie_values movies).isSome = true ↔
      ∀ m ∈ movies, m.year.isSome = true := fun movies => by
    rw [build_movie_values_isSome]; exact buildMovieList_isSome_iff movies
  refine ⟨hiff, ?_⟩
  rintro srv g n l hlook ⟨m, hm, hnone⟩
  have hnotall : ¬ ∀ m' ∈ l, m'.year.isSome = true := fun hall => by
    have := hall m hm
    rw [hnone] at this
    exact absurd this (by simp)
  have hbv : build_movie_values l = none := by
    cases hb : build_movie_values l with
    | none => rfl
    | some v => exact absurd ((hiff l).mp (by simp [hb])) hnotall
  simp only [step]
  simp at hlook
  simp [hlook, hbv]

/-- C1 counterexample: canceling at the media-type menu does not return to the
operation prompt: from the media-type dialog of a loaded session, the cancel
sentinel moves the navigator back to server selection (the browse loop exits
and the main loop restarts), not to the operation menu. -/
theorem nav_cancel_counterexample :
    step ⟨.mediaSelect srvEx gEx, 1⟩ .cancel = ⟨.serverSelect, 1⟩ ∧
    step ⟨.mediaSelect srvEx gEx, 1⟩ .cancel ≠ ⟨.opSelect srvEx, 1⟩ := by
  decide

/-- C1 (amended): canceling at the media-type menu unwinds two levels, back to
server selection, discarding the loaded catalog (re-browsing re-fetches it);
canceling at the operation menu returns to server selection; canceling at
server selection terminates the session; canceling at the movie list unwinds
one level back to the media-type menu.  No cancel itself re-fetches the
catalog: the fetch counter is unchanged by every cancel transition. -/
theorem nav_cancel_levels (srv : Server) (g : List (List Char × List Item))
    (ms : List (Item × List Char)) (n : Nat) :
    step ⟨.mediaSelect srv g, n⟩ .cancel = ⟨.serverSelect, n⟩ ∧
    step ⟨.opSelect srv, n⟩ .cancel = ⟨.serverSelect, n⟩ ∧
    step ⟨.serverSelect, n⟩ .cancel = ⟨.done, n⟩ ∧
    ((∃ v, build_media_type_values g = .ok v) →
      step ⟨.movieSelect srv g ms, n⟩ .cancel = ⟨.mediaSelect srv g, n⟩) := by
  refine ⟨rfl, rfl, rfl, ?_⟩
  rintro ⟨v, hv⟩
  simp [step, enterMediaMenu, hv]

deriving instance DecidableEq for Except

/-- C2: the "unreachable" fatal fault is reachable from the menu itself: with
a catalog of one show, the media-type menu offers exactly the kind `show`
(labelled "TV Show (1 items)"), yet choosing `show` raises the
`Invalid media type` fault — the `elif media_type == 'movie'` chain treats
every offered kind except `movie` as the unreachable branch, contradicting
the source's own `(shouldn't get here)` comment. -/
theorem media_fault_on_offered_kind :
    build_media_type_values gEx =
      .ok [("show".toList, "TV Show (1 items)".toList)] ∧
    step ⟨.mediaSelect srvEx gEx, 1⟩ (.selectMedia "show".toList) =
      ⟨.fatalError "Invalid media type: show".toList, 1⟩ := by
  decide

/-! ### Splitting and joining lemmas -/

lemma splitChar_cons (sep c : Char) (cs : List Char) :
    splitChar sep (c :: cs) =
      match splitChar sep cs with
      | [] => [[c]]
      | w :: ws => if c = sep then [] :: w :: ws else (c :: w) :: ws := rfl

lemma splitChar_ne_nil (sep : Char) (s : List Char) : splitChar sep s ≠ [] := by
  cases s with
  | nil => simp [splitChar]
  | cons c cs =>
    rw [splitChar_cons]
    cases h : splitChar sep cs with
    | nil => simp
    | cons w ws => by_cases hc : c = sep <;> simp [hc]

lemma splitChar_cons_sep (sep : Char) (cs : List Char) :
    splitChar sep (sep :: cs) = [] :: splitChar sep cs := by
  rw [splitChar_cons]
  cases h : splitChar sep cs with
  | nil => exact absurd h (splitChar_ne_nil sep cs)
  | cons w ws => simp

lemma splitChar_cons_ne (sep c : Char) (cs : List Char) (hc : c ≠ sep) :
    splitChar sep (c :: cs) =
      (c :: (splitChar sep cs).headI) :: (splitChar sep cs).tail := by
  rw [splitChar_cons]
  cases h : splitChar sep cs with
  | nil => exact absurd h (splitChar_ne_nil sep cs)
  | cons w ws => simp [hc]

lemma headI_append {α : Type} [Inhabited α] {x : List α} (y : List α) (h : x ≠ []) :
    (x ++ y).headI = x.headI := by
  cases x with
  | nil => exact absurd rfl h
  | cons a as => rfl

lemma tail_append {α : Type} {x : List α} (y : List α) (h : x ≠ []) :
    (x ++ y).tail = x.tail ++ y := by
  cases x with
  | nil => exact absurd rfl h
  | cons a as => rfl

lemma splitChar_append_sep (sep : Char) : ∀ (a b : List Char),
    splitChar sep (a ++ sep :: b) = splitChar sep a ++ splitChar sep b := by
  intro a b
  induction a with
  | nil => rw [List.nil_append, splitChar_cons_sep]; rfl
  | cons c a' ih =>
    by_cases hc : c = sep
    · subst hc
      rw [List.cons_append, splitChar_cons_sep, ih, splitChar_cons_sep]
      rfl
    · rw [List.cons_append, splitChar_cons_ne sep c _ hc, ih,
        splitChar_cons_ne sep c a' hc,
        headI_append _ (splitChar_ne_nil sep a'),
        tail_append _ (splitChar_ne_nil sep a')]
      rfl

lemma splitChar_no_sep (sep : Char) : ∀ (s : List Char), sep ∉ s →
    splitChar sep s = [s] := by
  intro s
  induction s with
  | nil => intro _; rfl
  | cons c cs ih =>
    intro h
    have hc : c ≠ sep := fun hh => h (hh ▸ List.mem_cons_self c cs)
    rw [splitChar_cons_ne sep c cs hc, ih (fun hh => h (List.mem_cons_of_mem c hh))]
    rfl

lemma splitChar_joinSep (sep : Char) : ∀ (parts : List (List Char)),
    parts ≠ [] → (∀ p ∈ parts, sep ∉ p) →
    splitChar sep (joinSep sep parts) = parts := by
  intro parts
  induction parts with
  | nil => intro h _; exact absurd rfl h
  | cons p ps ih =>
    intro _ hall
    cases ps with
    | nil => exact splitChar_no_sep sep p (hall p (by simp))
    | cons q rest =>
      show splitChar sep (p ++ sep :: joinSep sep (q :: rest)) = _
      rw [splitChar_append_sep, splitChar_no_sep sep p (hall p (by simp)),
        ih (by simp) (fun r hr => hall r (List.mem_cons_of_mem p hr))]
      rfl

lemma joinSep_splitChar (sep : Char) : ∀ (s : List Char),
    joinSep sep (splitChar sep s) = s := by
  intro s
  induction s with
  | nil => rfl
  | cons c cs ih =>
    by_cases hc : c = sep
    · subst hc
      rw [splitChar_cons_sep]
      cases h : splitChar c cs with
      | nil => exact absurd h (splitChar_ne_nil c cs)
      | cons x xs =>
        show joinSep c ([] :: x :: xs) = c :: cs
        rw [h] at ih
        show [] ++ c :: joinSep c (x :: xs) = c :: cs
        rw [List.nil_append, ih]
    · rw [splitChar_cons_ne sep c cs hc]
      cases h : splitChar sep cs with
      | nil => exact absurd h (splitChar_ne_nil sep cs)
      | cons x xs =>
        rw [h] at ih
        cases xs with
        | nil =>
          show joinSep sep [c :: x] = c :: cs
          show c :: x = c :: cs
          have : x = cs := by simpa [joinSep] using ih
          rw [this]
        | cons y r =>
          show joinSep sep ((c :: x) :: y :: r) = c :: cs
          show (c :: x) ++ sep :: joinSep sep (y :: r) = c :: cs
          have : x ++ sep :: joinSep sep (y :: r) = cs := ih
          rw [← this]
          rfl

lemma mem_joinSep (sep c : Char) : ∀ (parts : List (List Char)) (p : List Char),
    p ∈ parts → c ∈ p → c ∈ joinSep sep parts := by
  intro parts
  induction parts with
  | nil => intro p hp _; exact absurd hp (by simp)
  | cons q ps ih =>
    intro p hp hc
    cases ps with
    | nil =>
      rcases List.mem_cons.mp hp with rfl | hp
      · exact hc
      · exact absurd hp (by simp)
    | cons r rest =>
      show c ∈ q ++ sep :: joinSep sep (r :: rest)
      rcases List.mem_cons.mp hp with rfl | hp
      · exact List.mem_append_left _ hc
      · exact List.mem_append_right _ (List.mem_cons_of_mem _ (ih p hp hc))

lemma splitChar_word_mem (sep c : Char) (s w : List Char)
    (hw : w ∈ splitChar sep s) (hc : c ∈ w) : c ∈ s := by
  rw [← joinSep_splitChar sep s]
  exact mem_joinSep sep c _ w hw hc

lemma splitChar_word_not_sep (sep : Char) : ∀ (s w : List Char),
    w ∈ splitChar sep s → sep ∉ w := by
  intro s
  induction s with
  | nil =>
    intro w hw
    have : w = [] := by simpa [splitChar] using hw
    simp [this]
  | cons c cs ih =>
    intro w hw
    by_cases hc : c = sep
    · subst hc
      rw [splitChar_cons_sep] at hw
      rcases List.mem_cons.mp hw with rfl | hw
      · simp
      · exact ih w hw
    · rw [splitChar_cons_ne sep c cs hc] at hw
      cases h : splitChar sep cs with
      | nil => exact absurd h (splitChar_ne_nil sep cs)
      | cons x xs =>
        rw [h] at hw
        rcases List.mem_cons.mp hw with rfl | hw
        · intro hmem
          rcases List.mem_cons.mp hmem with hsep | hsep
          · exact hc hsep.symm
          · exact ih x (by rw [h]; simp) hsep
        · exact ih w (by rw [h]; exact List.mem_cons_of_mem _ hw)

/-! ### The wrap loop as lines of words -/

lemma breakStep_pair (maxW col : Nat) (text w : List Char) :
    breakStep maxW (col, text) w =
      if maxW ≤ col + w.length + 1 then
        (w.length + 1, text ++ '\n' :: (w ++ [' ']))
      else (col + w.length + 1, text ++ w ++ [' ']) := by
  unfold breakStep
  by_cases h : maxW ≤ col + w.length + 1 <;> simp [h]

lemma foldl_breakStep : ∀ (ws : List (List Char)) (maxW col : Nat) (text : List Char),
    (ws.foldl (breakStep maxW) (col, text)).2 = text ++ renderGo maxW col ws := by
  intro ws
  induction ws with
  | nil => intro maxW col text; simp [renderGo]
  | cons w ws ih =>
    intro maxW col text
    rw [List.foldl_cons, breakStep_pair]
    by_cases h : maxW ≤ col + w.length + 1
    · rw [if_pos h, ih, renderGo, if_pos h]
      simp
    · rw [if_neg h, ih, renderGo, if_neg h]
      simp

lemma break_string_eq_renderGo (s : List Char) (maxW : Nat) :
    break_string s maxW = renderGo maxW 0 (splitChar ' ' s) := by
  unfold break_string
  rw [foldl_breakStep]
  rfl

lemma breakLinesGo_ne_nil (maxW : Nat) : ∀ (ws : List (List Char)) (col : Nat)
    (cur : List (List Char)), breakLinesGo maxW col cur ws ≠ [] := by
  intro ws
  induction ws with
  | nil => intro col cur; simp [breakLinesGo]
  | cons w ws ih =>
    intro col cur
    unfold breakLinesGo
    by_cases h : maxW ≤ col + w.length + 1
    · simp [h]
    · simp only [if_neg h]
      exact ih _ _

lemma joinSep_cons_of_ne_nil (sep : Char) (p : List Char) (ps : List (List Char))
    (h : ps ≠ []) : joinSep sep (p :: ps) = p ++ sep :: joinSep sep ps := by
  cases ps with
  | nil => exact absurd rfl h
  | cons q rest => rfl

lemma renderLine_append (a b : List (List Char)) :
    renderLine (a ++ b) = renderLine a ++ renderLine b := by
  simp [renderLine]

lemma joinSep_breakLinesGo (maxW : Nat) : ∀ (ws : List (List Char)) (col : Nat)
    (cur : List (List Char)),
    joinSep '\n' ((breakLinesGo maxW col cur ws).map renderLine) =
      renderLine cur ++ renderGo maxW col ws := by
  intro ws
  induction ws with
  | nil =>
    intro col cur
    simp [breakLinesGo, renderGo, joinSep]
  | cons w ws ih =>
    intro col cur
    unfold breakLinesGo
    by_cases h : maxW ≤ col + w.length + 1
    · rw [if_pos h, List.map_cons,
        joinSep_cons_of_ne_nil _ _ _
          (by simp [breakLinesGo_ne_nil maxW ws]),
        ih, renderGo, if_pos h]
      have : renderLine [w] = w ++ [' '] := by simp [renderLine]
      rw [this]
      simp
    · rw [if_neg h, ih, renderGo, if_neg h, renderLine_append]
      have : renderLine [w] = w ++ [' '] := by simp [renderLine]
      rw [this]
      simp

lemma breakLinesGo_flatten (maxW : Nat) : ∀ (ws : List (List Char)) (col : Nat)
    (cur : List (List Char)),
    (breakLinesGo maxW col cur ws).flatten = cur ++ ws := by
  intro ws
  induction ws with
  | nil => intro col cur; simp [breakLinesGo]
  | cons w ws ih =>
    intro col cur
    unfold breakLinesGo
    by_cases h : maxW ≤ col + w.length + 1
    · rw [if_pos h]
      simp only [List.flatten_cons, ih]
      rfl
    · rw [if_neg h, ih]
      simp

lemma wsTokens_nil : wsTokens [] = [] := rfl

lemma wsTokens_append_space (a b : List Char) :
    wsTokens (a ++ ' ' :: b) = wsTokens a ++ wsTokens b := by
  unfold wsTokens
  rw [splitChar_append_sep]
  simp [List.filter_append]

lemma wsTokens_cons_newline (t : List Char) :
    wsTokens ('\n' :: t) = wsTokens t := by
  unfold wsTokens
  rw [splitChar_cons_ne ' ' '\n' t (by decide)]
  cases hP : splitChar ' ' t with
  | nil => exact absurd hP (splitChar_ne_nil ' ' t)
  | cons x xs =>
    simp only [List.headI, List.tail, List.map_cons, List.flatten_cons,
      List.filter_append]
    rw [splitChar_cons_sep]
    simp [List.filter_cons]

lemma wsTokens_renderGo (maxW : Nat) : ∀ (ws : List (List Char)) (col : Nat),
    wsTokens (renderGo maxW col ws) = (ws.map wsTokens).flatten := by
  intro ws
  induction ws with
  | nil => intro col; simp [renderGo, wsTokens_nil]
  | cons w ws ih =>
    intro col
    unfold renderGo
    by_cases h : maxW ≤ col + w.length + 1
    · rw [if_pos h, wsTokens_cons_newline, wsTokens_append_space, ih]
      simp
    · rw [if_neg h, wsTokens_append_space, ih]
      simp

lemma wsTokens_joinSep_space : ∀ (parts : List (List Char)),
    wsTokens (joinSep ' ' parts) = (parts.map wsTokens).flatten := by
  intro parts
  induction parts with
  | nil => simp [joinSep, wsTokens_nil]
  | cons p ps ih =>
    cases ps with
    | nil => simp [joinSep]
    | cons q rest =>
      rw [joinSep_cons_of_ne_nil _ _ _ (by simp), wsTokens_append_space, ih]
      simp

/-- C4: word round-trip — splitting `break_string`'s output on spacing and
newlines and dropping the empty fragments gives back exactly the nonempty
words of the input, in order: no word is dropped, duplicated, split or
reordered, for every input string and width. -/
theorem break_string_words_roundtrip (s : List Char) (maxW : Nat) :
    wsTokens (break_string s maxW) = wsTokens s := by
  rw [break_string_eq_renderGo, wsTokens_renderGo]
  conv_rhs => rw [← joinSep_splitChar ' ' s]
  rw [wsTokens_joinSep_space]

/-! ### Line shape of the wrapped text -/

lemma dropWhile_length_le {α : Type} (p : α → Bool) (l : List α) :
    (l.dropWhile p).length ≤ l.length :=
  (List.dropWhile_sublist p).length_le

lemma rstripSpaces_length_le (l : List Char) :
    (rstripSpaces l).length ≤ l.length := by
  unfold rstripSpaces
  rw [List.length_reverse]
  calc (l.reverse.dropWhile (fun c => c == ' ')).length
      ≤ l.reverse.length := dropWhile_length_le _ _
    _ = l.length := List.length_reverse l

lemma rstripSpaces_append_space (l : List Char) :
    rstripSpaces (l ++ [' ']) = rstripSpaces l := by
  unfold rstripSpaces
  rw [List.reverse_append]
  simp [List.dropWhile_cons]

lemma renderLine_length (line : List (List Char)) :
    (renderLine line).length = lineWeight line := by
  unfold renderLine lineWeight
  rw [List.length_flatten, List.map_map]
  congr 1
  refine List.map_congr_left ?_
  intro w _
  simp [Function.comp]

lemma lineWeight_append (a b : List (List Char)) :
    lineWeight (a ++ b) = lineWeight a + lineWeight b := by
  simp [lineWeight]

lemma breakLinesGo_inv (maxW : Nat) : ∀ (ws : List (List Char)) (col : Nat)
    (cur : List (List Char)), col = lineWeight cur →
    (2 ≤ cur.length → lineWeight cur < maxW) →
    ∀ l2 ∈ breakLinesGo maxW col cur ws, 2 ≤ l2.length → lineWeight l2 < maxW := by
  intro ws
  induction ws with
  | nil =>
    intro col cur _ hcur l2 hl2
    rw [show breakLinesGo maxW col cur [] = [cur] from rfl] at hl2
    rcases List.mem_singleton.mp hl2 with rfl
    exact hcur
  | cons w ws ih =>
    intro col cur hcol hcur l2 hl2
    unfold breakLinesGo at hl2
    by_cases h : maxW ≤ col + w.length + 1
    · rw [if_pos h] at hl2
      rcases List.mem_cons.mp hl2 with rfl | hl2
      · exact hcur
      · refine ih (w.length + 1) [w] (by simp [lineWeight]) (by simp) l2 hl2
    · rw [if_neg h] at hl2
      refine ih (col + w.length + 1) (cur ++ [w])
        (by rw [lineWeight_append, ← hcol]; simp [lineWeight]; omega) ?_ l2 hl2
      intro _
      rw [lineWeight_append, ← hcol]
      simp only [lineWeight, List.map_cons, List.map_nil, List.sum_cons,
        List.sum_nil]
      omega

lemma splitChar_renderLine : ∀ (g : List (List Char)), (∀ w ∈ g, ' ' ∉ w) →
    splitChar ' ' (renderLine g) = g ++ [[]] := by
  intro g
  induction g with
  | nil => intro _; rfl
  | cons w gs ih =>
    intro hall
    have : renderLine (w :: gs) = w ++ ' ' :: renderLine gs := by
      simp [renderLine]
    rw [this, splitChar_append_sep,
      splitChar_no_sep ' ' w (hall w (by simp)),
      ih (fun v hv => hall v (List.mem_cons_of_mem _ hv))]
    rfl

lemma mem_renderLine (g : List (List Char)) (c : Char) (hc : c ∈ renderLine g) :
    c = ' ' ∨ ∃ w ∈ g, c ∈ w := by
  unfold renderLine at hc
  rcases List.mem_flatten.mp hc with ⟨piece, hpiece, hcp⟩
  rcases List.mem_map.mp hpiece with ⟨w, hw, rfl⟩
  rcases List.mem_append.mp hcp with hcw | hcsp
  · exact Or.inr ⟨w, hw, hcw⟩
  · exact Or.inl (List.mem_singleton.mp hcsp)

lemma break_string_lines (s : List Char) (maxW : Nat) (hnl : '\n' ∉ s) :
    splitChar '\n' (break_string s maxW) =
      (breakLinesGo maxW 0 [] (splitChar ' ' s)).map renderLine := by
  have hwords_nl : ∀ w ∈ splitChar ' ' s, '\n' ∉ w := by
    intro w hw hmem
    exact hnl (splitChar_word_mem ' ' '\n' s w hw hmem)
  have hline_nl : ∀ part ∈ (breakLinesGo maxW 0 [] (splitChar ' ' s)).map renderLine,
      '\n' ∉ part := by
    intro part hpart hmem
    rcases List.mem_map.mp hpart with ⟨g, hg, rfl⟩
    rcases mem_renderLine g '\n' hmem with h | ⟨w, hwg, hcw⟩
    · exact absurd h (by decide)
    · have hws : w ∈ splitChar ' ' s := by
        have := breakLinesGo_flatten maxW (splitChar ' ' s) 0 []
        rw [← List.nil_append (splitChar ' ' s), ← this]
        exact List.mem_flatten.mpr ⟨g, hg, hwg⟩
      exact hwords_nl w hws hcw
  have hjoin : break_string s maxW =
      joinSep '\n' ((breakLinesGo maxW 0 [] (splitChar ' ' s)).map renderLine) := by
    rw [break_string_eq_renderGo, joinSep_breakLinesGo]
    rfl
  rw [hjoin, splitChar_joinSep '\n' _
    (by simp [breakLinesGo_ne_nil maxW]) hline_nl]

/-- C3 counterexample: with `max_width = 3` and the single word `"abc"` (length
exactly 3), the emitted line is `"abc "` of length 4 — it exceeds `maxWidth`
although no word of the input exceeds 3: the emitted trailing space pushes a
word of length exactly `max_width` over the limit. -/
theorem break_string_width_counterexample :
    ¬ (∀ line ∈ splitChar '\n' (break_string "abc".toList 3),
        line.length ≤ 3 ∨ ∃ w ∈ splitChar ' ' "abc".toList, 3 < w.length) := by
  decide

/-- C3 (amended): every emitted line of `break_string`, after discounting the
trailing spaces the wrapper appends after each word, is at most `maxWidth`
long, except when the line's single word itself is longer than `maxWidth`;
and a word is never split: every nonempty space-separated fragment of an
emitted line is a word of the input.  (Counting the one trailing space, a
line can reach `maxWidth + 1`, see the counterexample.)  Stated for
newline-free inputs, i.e. genuinely space-delimited text. -/
theorem break_string_line_width (s : List Char) (maxW : Nat) (hnl : '\n' ∉ s) :
    ∀ line ∈ splitChar '\n' (break_string s maxW),
      ((rstripSpaces line).length ≤ maxW ∨
        ∃ w ∈ splitChar ' ' line, maxW < w.length) ∧
      (∀ w ∈ splitChar ' ' line, w ≠ [] → w ∈ splitChar ' ' s) := by
  intro line hline
  rw [break_string_lines s maxW hnl] at hline
  rcases List.mem_map.mp hline with ⟨g, hg, rfl⟩
  have hgmem : ∀ w ∈ g, w ∈ splitChar ' ' s := by
    intro w hw
    have hfl := breakLinesGo_flatten maxW (splitChar ' ' s) 0 []
    rw [← List.nil_append (splitChar ' ' s), ← hfl]
    exact List.mem_flatten.mpr ⟨g, hg, hw⟩
  have hgnosp : ∀ w ∈ g, ' ' ∉ w := fun w hw =>
    splitChar_word_not_sep ' ' s w (hgmem w hw)
  have hsplit : splitChar ' ' (renderLine g) = g ++ [[]] :=
    splitChar_renderLine g hgnosp
  have hinv : 2 ≤ g.length → lineWeight g < maxW :=
    breakLinesGo_inv maxW (splitChar ' ' s) 0 []
      (by simp [lineWeight]) (by simp) g hg
  constructor
  · cases g with
    | nil =>
      left
      have h0 : renderLine [] = [] := rfl
      rw [h0]
      exact le_trans (rstripSpaces_length_le []) (Nat.zero_le maxW)
    | cons w gs =>
      cases gs with
      | nil =>
        by_cases hw : w.length ≤ maxW
        · left
          have h1 : renderLine [w] = w ++ [' '] := by simp [renderLine]
          rw [h1, rstripSpaces_append_space]
          exact le_trans (rstripSpaces_length_le w) hw
        · right
          exact ⟨w, by rw [hsplit]; simp, by omega⟩
      | cons w2 gs2 =>
        left
        have hlen : 2 ≤ (w :: w2 :: gs2).length := by simp
        have hlt : lineWeight (w :: w2 :: gs2) < maxW := hinv hlen
        calc (rstripSpaces (renderLine (w :: w2 :: gs2))).length
            ≤ (renderLine (w :: w2 :: gs2)).length := rstripSpaces_length_le _
          _ = lineWeight (w :: w2 :: gs2) := renderLine_length _
          _ ≤ maxW := le_of_lt hlt
  · intro w hw hne
    rw [hsplit] at hw
    rcases List.mem_append.mp hw with hw | hw
    · exact hgmem w hw
    · exact absurd (List.mem_singleton.mp hw) hne

/-- C3 witness: the amended property applied to the concrete wrap of
`"hello world"` at width 8 and its first emitted line `"hello "`. -/
theorem break_string_line_width_witness :
    ((rstripSpaces "hello ".toList).length ≤ 8 ∨
      ∃ w ∈ splitChar ' ' "hello ".toList, 8 < w.length) ∧
    (∀ w ∈ splitChar ' ' "hello ".toList, w ≠ [] →
      w ∈ splitChar ' ' "hello world".toList) :=
  break_string_line_width "hello world".toList 8 (by decide) "hello ".toList
    (by decide)
